import Mathlib

/-
Verification development for the audio pipeline of the AwaazAI repository.

The embedded code is the audio module of the repository (decodePCMToAudioBuffer,
audioBufferToWav, timeStretch, processAudio).  Samples that the original stores
in Float32Array / Float64 are modelled as exact rationals on the codec side
(every operation performed there — division by 32768, multiplication by 32767
or 32768, clamping, truncation toward zero — is exact in binary floating point
for 16-bit integer samples, so the rational model is faithful), and as real
numbers on the signal-processing side, where the source uses cos and pow.
-/

namespace AwaazAI

/-- The canonical in-memory audio representation: a list of per-channel sample
functions, a frame count and a sample rate.  Channel data beyond the frame
count is irrelevant to every operation modelled here. -/
structure AudioBuffer (α : Type) where
  channelData : List (ℕ → α)
  length : ℕ
  sampleRate : ℕ

/-- Number of channels of a buffer, as in buffer.numberOfChannels. -/
def AudioBuffer.numberOfChannels {α : Type} (b : AudioBuffer α) : ℕ :=
  b.channelData.length

/-- Reinterpretation of two little-endian bytes as one signed 16-bit sample,
exactly what reading an Int16Array element does. -/
def toInt16 (lo hi : ℕ) : ℤ :=
  let u : ℕ := (lo + 256 * hi) % 65536
  if 32768 ≤ u then (u : ℤ) - 65536 else (u : ℤ)

/-- The sample list an Int16Array view exposes over a byte buffer: consecutive
little-endian 16-bit groups.  A trailing odd byte yields no sample (the guard
in decodePCMToAudioBuffer rejects that case before this function matters). -/
def samplesOfBytes : List ℕ → List ℤ
  | lo :: hi :: rest => toInt16 lo hi :: samplesOfBytes rest
  | _ => []

/-- Embedding of decodePCMToAudioBuffer.  new Int16Array(data.buffer) throws a
RangeError when the byte length of the buffer is odd, and createBuffer throws
for a channel count of 0; both failure modes are modelled as none.  Otherwise
frameCount = dataInt16.length / numChannels (the fractional JS value is
truncated by the unsigned-long conversion inside createBuffer, and the writes
the sample loop attempts past the channel length are silently dropped by the
Float32Array, so natural-number division is the observable behaviour), and
channel c receives sample i from interleaved position i * numChannels + c,
normalised by s / 32768.0. -/
def decodePCMToAudioBuffer (data : List ℕ) (sampleRate : ℕ) (numChannels : ℕ) :
    Option (AudioBuffer ℚ) :=
  if data.length % 2 ≠ 0 then none
  else if numChannels = 0 then none
  else
    let s : List ℤ := samplesOfBytes data
    let frameCount : ℕ := s.length / numChannels
    some
      { channelData :=
          (List.range numChannels).map (fun c => fun i =>
            if i < frameCount then ((s.getD (i * numChannels + c) 0 : ℤ) : ℚ) / 32768 else 0)
        length := frameCount
        sampleRate := sampleRate }

/-- Two little-endian bytes of an unsigned 16-bit value, as written by the
setUint16 helper of audioBufferToWav. -/
def u16le (n : ℕ) : List ℕ := [n % 256, n / 256 % 256]

/-- Four little-endian bytes of an unsigned 32-bit value, as written by the
setUint32 helper of audioBufferToWav. -/
def u32le (n : ℕ) : List ℕ :=
  [n % 256, n / 256 % 256, n / 65536 % 256, n / 16777216 % 256]

/-- Two little-endian bytes of a signed 16-bit value, as written by
view.setInt16(pos, sample, true). -/
def i16le (z : ℤ) : List ℕ := u16le ((z % 65536).toNat)

/-- Truncation toward zero of a rational, the effect of the JS bitwise
(.. | 0) conversion on every value the encoder can produce after clamping
(no 32-bit wrap-around can occur in [-32768, 32767]): ceiling for negative
arguments, floor for non-negative ones. -/
def truncToInt (q : ℚ) : ℤ := if q < 0 then ⌈q⌉ else ⌊q⌋

/-- Per-sample quantisation of audioBufferToWav:
sample = Math.max(-1, Math.min(1, x)); then
(sample < 0 ? sample * 0x8000 : sample * 0x7fff) | 0. -/
def quantize (x : ℚ) : ℤ :=
  let s := max (-1) (min 1 x)
  truncToInt (if s < 0 then s * 0x8000 else s * 0x7fff)

/-- The quantisation formula in the words of the specification: clamp to
[-1, 1]; a negative value maps through sample * 32768 and a non-negative one
through sample * 32767, each converted to an integer by truncation toward
zero. -/
def specQuantize (x : ℚ) : ℤ :=
  let c := max (-1) (min 1 x)
  if c < 0 then truncToInt (c * 32768) else truncToInt (c * 32767)

/-- One interleaved frame of the data section: each channel in order
contributes the two little-endian bytes of its quantised sample. -/
def frameBytes (channels : List (ℕ → ℚ)) (off : ℕ) : List ℕ :=
  (channels.map (fun ch => i16le (quantize (ch off)))).flatten

/-- The data-section loop of audioBufferToWav: while frames remain, write one
interleaved frame and advance the frame offset. -/
def wavDataAux (channels : List (ℕ → ℚ)) : ℕ → ℕ → List ℕ
  | 0, _ => []
  | n + 1, off => frameBytes channels off ++ wavDataAux channels n (off + 1)

/-- The complete interleaved 16-bit data section of the produced WAV file. -/
def wavData (b : AudioBuffer ℚ) : List ℕ := wavDataAux b.channelData b.length 0

/-- The 44-byte RIFF/WAVE header exactly as audioBufferToWav writes it. -/
def wavHeader (b : AudioBuffer ℚ) : List ℕ :=
  let numOfChan := b.numberOfChannels
  let totalLen := b.length * numOfChan * 2 + 44
  u32le 0x46464952 ++ u32le (totalLen - 8) ++ u32le 0x45564157 ++
  u32le 0x20746d66 ++ u32le 16 ++ u16le 1 ++ u16le numOfChan ++
  u32le b.sampleRate ++ u32le (b.sampleRate * 2 * numOfChan) ++
  u16le (numOfChan * 2) ++ u16le 16 ++
  u32le 0x61746164 ++ u32le (totalLen - 44)

/-- Embedding of audioBufferToWav: the byte list of the produced Blob. -/
def audioBufferToWav (b : AudioBuffer ℚ) : List ℕ := wavHeader b ++ wavData b

/-- The value a full decode-encode round trip gives back for a stored 16-bit
sample: nonpositive samples survive exactly, every positive sample loses 1
(decode divides by 32768 while encode multiplies non-negatives by 32767 and
truncates). -/
def rtSample (s : ℤ) : ℤ := if 0 < s then s - 1 else s

/-- The byte sequence the round trip produces from an aligned PCM byte
sequence: each little-endian 16-bit group is replaced by the little-endian
encoding of the round-tripped sample. -/
def rtBytes : List ℕ → List ℕ
  | lo :: hi :: rest => i16le (rtSample (toInt16 lo hi)) ++ rtBytes rest
  | _ => []

/-- The Hann window of timeStretch:
hann[i] = 0.5 * (1 - cos(2 * PI * i / (windowSize - 1))) with windowSize =
1024. -/
noncomputable def hann (j : ℕ) : ℝ :=
  1 / 2 * (1 - Real.cos (2 * Real.pi * (j : ℝ) / 1023))

/-- The synthesis hop of timeStretch: outHopSize = Math.floor(hopSize / ratio)
with hopSize = 512. -/
noncomputable def outHop (r : ℝ) : ℤ := ⌊(512 : ℝ) / r⌋

/-- The output frame count of timeStretch:
newLength = Math.max(1, Math.floor(oldLength / ratio)). -/
noncomputable def newLenOf (oldLen : ℕ) (r : ℝ) : ℕ :=
  max 1 (Int.toNat ⌊(oldLen : ℝ) / r⌋)

/-- One pass of the inner window loop of timeStretch at synthesis position i:
for each offset j in [0, 1024), output[i+j] += input[inputIdx+j] * hann[j] and
weights[i+j] += hann[j], with inputIdx = Math.floor(i * ratio).  The state is
the pair (output accumulator, weight accumulator), both total functions on ℤ
(the loop only ever touches indices in [i, i + 1024)). -/
noncomputable def olaStepAcc (input : ℕ → ℝ) (r : ℝ)
    (st : (ℤ → ℝ) × (ℤ → ℝ)) (i : ℤ) : (ℤ → ℝ) × (ℤ → ℝ) :=
  (fun k => if i ≤ k ∧ k < i + 1024 then
      st.1 k + input (⌊(i : ℝ) * r⌋ + (k - i)).toNat * hann (k - i).toNat
    else st.1 k,
   fun k => if i ≤ k ∧ k < i + 1024 then st.2 k + hann (k - i).toNat else st.2 k)

/-- The synthesis loop of timeStretch, fuel-indexed:
for (i = 0; i < newLength - windowSize; i += outHopSize) with the break when
inputIdx + windowSize > oldLength.  When the hop is at least 1 the loop runs
at most newLength iterations, so a fuel of newLength + 1 reproduces the
source loop exactly; the fuel only cuts runs that the source never finishes
(see the loop-termination analysis below). -/
noncomputable def olaLoop (input : ℕ → ℝ) (r : ℝ) (hop : ℤ) (oldLen newLen : ℕ) :
    ℕ → ℤ → ((ℤ → ℝ) × (ℤ → ℝ)) → ((ℤ → ℝ) × (ℤ → ℝ))
  | 0, _, st => st
  | fuel + 1, i, st =>
    if i < (newLen : ℤ) - 1024 then
      if (oldLen : ℤ) < ⌊(i : ℝ) * r⌋ + 1024 then st
      else olaLoop input r hop oldLen newLen fuel (i + hop) (olaStepAcc input r st i)
    else st

/-- The normalisation pass of timeStretch: where the accumulated weight
exceeds 0.01 the sample is divided by it, elsewhere it is left untouched. -/
noncomputable def normalizePass (st : (ℤ → ℝ) × (ℤ → ℝ)) : ℕ → ℝ :=
  fun k => if st.2 (k : ℤ) > 1 / 100 then st.1 (k : ℤ) / st.2 (k : ℤ) else st.1 (k : ℤ)

/-- One channel of timeStretch: run the synthesis loop from position 0 on
zero-initialised output and weight arrays, then normalise. -/
noncomputable def stretchChannel (input : ℕ → ℝ) (r : ℝ) (oldLen : ℕ) : ℕ → ℝ :=
  let newLen := newLenOf oldLen r
  normalizePass
    (olaLoop input r (outHop r) oldLen newLen (newLen + 1) 0 (fun _ => 0, fun _ => 0))

/-- Embedding of timeStretch.  The near-unity fast path returns the argument
itself; otherwise a fresh buffer of newLength frames, same channel count and
sample rate, is produced by the per-channel overlap-add synthesis. -/
noncomputable def timeStretch (b : AudioBuffer ℝ) (r : ℝ) : AudioBuffer ℝ :=
  if |r - 1| < 1 / 1000 then b
  else
    { channelData := b.channelData.map (fun ch => stretchChannel ch r b.length)
      length := newLenOf b.length r
      sampleRate := b.sampleRate }

/-- The synthesis positions the claim describes: every i = k * Hout with
i + 1024 ≤ newLength, visited in order from 0, cut at the first position
whose analysis index ⌊i * r⌋ overruns the input (the break). -/
noncomputable def olaSpecPositions (r : ℝ) (oldLen newLen : ℕ) : List ℤ :=
  ((((List.range (newLen + 1)).map (fun k : ℕ => (k : ℤ) * outHop r)).filter
      (fun i => decide (i + 1024 ≤ (newLen : ℤ)))).takeWhile
      (fun i => decide (⌊(i : ℝ) * r⌋ + 1024 ≤ (oldLen : ℤ))))

/-- One channel of the overlap-add synthesis exactly as the claim words it:
fold the window accumulation over the positions of olaSpecPositions, then
normalise where the weight exceeds 0.01. -/
noncomputable def olaSpec (input : ℕ → ℝ) (r : ℝ) (oldLen : ℕ) : ℕ → ℝ :=
  normalizePass
    ((olaSpecPositions r oldLen (newLenOf oldLen r)).foldl
      (olaStepAcc input r) (fun _ => 0, fun _ => 0))

/-- The synthesis positions with the strict bound the source actually uses:
every i = k * Hout with i + 1024 < newLength, cut at the first break. -/
noncomputable def olaStrictPositions (r : ℝ) (oldLen newLen : ℕ) : List ℤ :=
  ((((List.range (newLen + 1)).map (fun k : ℕ => (k : ℤ) * outHop r)).filter
      (fun i => decide (i + 1024 < (newLen : ℤ)))).takeWhile
      (fun i => decide (⌊(i : ℝ) * r⌋ + 1024 ≤ (oldLen : ℤ))))

/-- One channel of the overlap-add synthesis with the strict loop bound. -/
noncomputable def olaStrict (input : ℕ → ℝ) (r : ℝ) (oldLen : ℕ) : ℕ → ℝ :=
  normalizePass
    ((olaStrictPositions r oldLen (newLenOf oldLen r)).foldl
      (olaStepAcc input r) (fun _ => 0, fun _ => 0))

/-- The list of synthesis positions the fuel-indexed loop visits, mirroring
the control flow of olaLoop position for position. -/
noncomputable def codePositions (r : ℝ) (hop : ℤ) (oldLen newLen : ℕ) :
    ℕ → ℤ → List ℤ
  | 0, _ => []
  | fuel + 1, i =>
    if i < (newLen : ℤ) - 1024 then
      if (oldLen : ℤ) < ⌊(i : ℝ) * r⌋ + 1024 then []
      else i :: codePositions r hop oldLen newLen fuel (i + hop)
    else []

/-- One step of the control state of the synthesis loop: none when the loop
has exited (condition false or break), otherwise the next position. -/
noncomputable def loopStep (r : ℝ) (oldLen newLen : ℕ) (i : ℤ) : Option ℤ :=
  if i < (newLen : ℤ) - 1024 then
    if (oldLen : ℤ) < ⌊(i : ℝ) * r⌋ + 1024 then none
    else some (i + outHop r)
  else none

/-- The loop position after n steps, starting from 0; none once exited. -/
noncomputable def loopPos (r : ℝ) (oldLen newLen : ℕ) : ℕ → Option ℤ
  | 0 => some 0
  | n + 1 => (loopPos r oldLen newLen n).bind (loopStep r oldLen newLen)

/-- Termination of the synthesis loop of timeStretch: some number of steps
reaches the exited state. -/
def LoopTerminates (r : ℝ) (oldLen newLen : ℕ) : Prop :=
  ∃ n, loopPos r oldLen newLen n = none

/-- The pitch factor of processAudio: Math.pow(2, pitch / 12). -/
noncomputable def pitchFactorOf (pitch : ℝ) : ℝ := (2 : ℝ) ^ (pitch / 12)

/-- The frame count of the buffer processAudio returns.  processAudio first
runs timeStretch with stretchRatio = speed / pitchFactor, then resamples in
an OfflineAudioContext created with
Math.max(1, Math.floor(stretched.length / pitchFactor)) frames (the rendering
facility itself is environment code outside this repository; the frame count
written here is the one the source passes to it on construction). -/
noncomputable def processAudioLength (b : AudioBuffer ℝ) (speed pitch : ℝ) : ℕ :=
  max 1 (Int.toNat
    ⌊((timeStretch b (speed / pitchFactorOf pitch)).length : ℝ) / pitchFactorOf pitch⌋)

/-- Stereo test buffer of claim C6: 2 channels, 100 frames, 24000 Hz, silent. -/
def bufC6 : AudioBuffer ℚ :=
  { channelData := [fun _ => 0, fun _ => 0], length := 100, sampleRate := 24000 }

/-- Mono one-frame buffer holding the out-of-range sample 1.5. -/
def bufSampleOverflow : AudioBuffer ℚ :=
  { channelData := [fun _ => 3 / 2], length := 1, sampleRate := 24000 }

/-- Mono one-frame buffer holding the full-scale sample 1.0. -/
def bufSampleFull : AudioBuffer ℚ :=
  { channelData := [fun _ => 1], length := 1, sampleRate := 24000 }

/-- Mono 10-frame constant buffer, used for the identity fast path. -/
noncomputable def bufIdentity : AudioBuffer ℝ :=
  { channelData := [fun _ => 1 / 3], length := 10, sampleRate := 24000 }

/-- Mono single-frame buffer for the length-formula counterexample. -/
noncomputable def bufOneFrame : AudioBuffer ℝ :=
  { channelData := [fun _ => 0], length := 1, sampleRate := 24000 }

/-- Mono zero-frame buffer for the degenerate-length edge case. -/
noncomputable def bufZeroLen : AudioBuffer ℝ :=
  { channelData := [fun _ => 0], length := 0, sampleRate := 24000 }

/-- Mono 100-frame constant buffer whose stretch output is shorter than one
window. -/
noncomputable def bufShort : AudioBuffer ℝ :=
  { channelData := [fun _ => 1 / 2], length := 100, sampleRate := 24000 }

/-- Mono 2048-frame constant buffer: at ratio 2 the output is exactly one
window long, the case separating the strict and non-strict loop bounds. -/
noncomputable def bufWindow : AudioBuffer ℝ :=
  { channelData := [fun _ => 1 / 2], length := 2048, sampleRate := 24000 }

/-- Mono 4096-frame silent buffer for the loop-description witness. -/
noncomputable def bufStretchW : AudioBuffer ℝ :=
  { channelData := [fun _ => 0], length := 4096, sampleRate := 24000 }

/-- Mono one-second buffer (24000 frames at 24000 Hz) for the orchestrator
claims. -/
noncomputable def bufSecond : AudioBuffer ℝ :=
  { channelData := [fun _ => 0], length := 24000, sampleRate := 24000 }

theorem timeStretch_length (b : AudioBuffer ℝ) (r : ℝ) (h : ¬ |r - 1| < 1 / 1000) :
    (timeStretch b r).length = newLenOf b.length r := by
  simp only [timeStretch]
  rw [if_neg h]

theorem timeStretch_rate (b : AudioBuffer ℝ) (r : ℝ) (h : ¬ |r - 1| < 1 / 1000) :
    (timeStretch b r).sampleRate = b.sampleRate := by
  simp only [timeStretch]
  rw [if_neg h]

theorem timeStretch_channels (b : AudioBuffer ℝ) (r : ℝ) (h : ¬ |r - 1| < 1 / 1000) :
    (timeStretch b r).channelData =
      b.channelData.map (fun ch => stretchChannel ch r b.length) := by
  simp only [timeStretch]
  rw [if_neg h]

theorem stretch_short (input : ℕ → ℝ) (r : ℝ) (oldLen : ℕ)
    (hshort : newLenOf oldLen r ≤ 1024) (k : ℕ) :
    stretchChannel input r oldLen k = 0 := by
  have hguard : ¬ ((0 : ℤ) < (newLenOf oldLen r : ℤ) - 1024) := by
    omega
  simp only [stretchChannel, olaLoop, hguard, if_false]
  simp [normalizePass]

/-- C4: for every AudioBuffer b and every ratio r with |r - 1.0| < 0.001 (in
particular r = 1.0), timeStretch skips all processing and returns the input
buffer unchanged, sample-identical to b. -/
theorem claim_C4 (b : AudioBuffer ℝ) (r : ℝ) (h : |r - 1| < 1 / 1000) :
    timeStretch b r = b := by
  simp only [timeStretch]
  rw [if_pos h]

theorem claim_C4_witness : timeStretch bufIdentity 1 = bufIdentity :=
  claim_C4 bufIdentity 1 (by norm_num)

/-- C5 counterexample: stretching a 1-frame buffer with ratio 2 produces 1
frame, not floor(1 / 2) = 0 frames, refuting the unclamped length formula of
the claim. -/
theorem claim_C5_cex :
    (timeStretch bufOneFrame 2).length = 1 ∧
      Int.toNat ⌊((bufOneFrame.length : ℝ)) / 2⌋ = 0 := by
  constructor
  · rw [timeStretch_length bufOneFrame 2 (by norm_num)]
    show max 1 (Int.toNat ⌊((1 : ℕ) : ℝ) / 2⌋) = 1
    norm_num
  · show Int.toNat ⌊((1 : ℕ) : ℝ) / 2⌋ = 0
    norm_num

/-- C5 (amended): for |r - 1.0| >= 0.001 with 0 < r <= 512 (so the synthesis
loop makes progress and the source call returns), timeStretch produces a
buffer of max(1, floor(oldLength / r)) frames per channel — the claimed
floor(oldLength / r) clamped below by 1 — with the same sample rate and
channel count; in particular a 0-frame buffer yields at least 1 frame. -/
theorem claim_C5 (b : AudioBuffer ℝ) (r : ℝ) (h : ¬ |r - 1| < 1 / 1000)
    (h0 : 0 < r) (h512 : r ≤ 512) :
    (timeStretch b r).length = max 1 (Int.toNat ⌊(b.length : ℝ) / r⌋) ∧
    (timeStretch b r).sampleRate = b.sampleRate ∧
    (timeStretch b r).numberOfChannels = b.numberOfChannels ∧
    1 ≤ (timeStretch b r).length := by
  refine ⟨timeStretch_length b r h, timeStretch_rate b r h, ?_, ?_⟩
  · rw [AudioBuffer.numberOfChannels, AudioBuffer.numberOfChannels,
      timeStretch_channels b r h, List.length_map]
  · rw [timeStretch_length b r h, newLenOf]
    exact le_max_left 1 _

theorem claim_C5_witness :
    (timeStretch bufZeroLen 2).length = max 1 (Int.toNat ⌊((bufZeroLen.length : ℝ)) / 2⌋) ∧
    (timeStretch bufZeroLen 2).sampleRate = bufZeroLen.sampleRate ∧
    (timeStretch bufZeroLen 2).numberOfChannels = bufZeroLen.numberOfChannels ∧
    1 ≤ (timeStretch bufZeroLen 2).length :=
  claim_C5 bufZeroLen 2 (by norm_num) (by norm_num) (by norm_num)

/-- C9: whenever |r - 1.0| >= 0.001 and the output length
max(1, floor(oldLength / r)) is at most the window size 1024, the synthesis
loop runs zero iterations and every sample of the stretched buffer is exactly
0, regardless of the input content. -/
theorem claim_C9 (b : AudioBuffer ℝ) (r : ℝ) (h : ¬ |r - 1| < 1 / 1000)
    (h0 : 0 < r) (hshort : newLenOf b.length r ≤ 1024) :
    ∀ c k, ((timeStretch b r).channelData.getD c (fun _ => 0)) k = 0 := by
  intro c k
  rw [timeStretch_channels b r h]
  by_cases hc : c < b.channelData.length
  · have hc2 : c < (b.channelData.map (fun ch => stretchChannel ch r b.length)).length := by
      simpa using hc
    rw [List.getD_eq_getElem _ _ hc2, List.getElem_map]
    exact stretch_short _ r b.length hshort k
  · rw [List.getD_eq_default]
    simp
    simpa using hc

theorem claim_C9_witness :
    ((timeStretch bufShort 2).channelData.getD 0 (fun _ => 0)) 7 = 0 := by
  refine claim_C9 bufShort 2 (by norm_num) (by norm_num) ?_ 0 7
  show max 1 (Int.toNat ⌊((100 : ℕ) : ℝ) / 2⌋) ≤ 1024
  norm_num

/-- C10: the code loops forever on a 525825-frame buffer at ratio 513 — the
step floor(512 / 513) is 0, the loop condition 0 < 1025 - 1024 holds and the
break never fires, so the synthesis loop never exits; the claimed termination
for every r > 0 fails. -/
theorem claim_C10 :
    ¬ |(513 : ℝ) - 1| < 1 / 1000 ∧
    newLenOf 525825 513 = 1025 ∧
    outHop 513 = 0 ∧
    ¬ LoopTerminates 513 525825 (newLenOf 525825 513) := by
  have hhop : outHop 513 = 0 := by
    rw [outHop]
    norm_num [Int.floor_eq_zero_iff, Set.mem_Ico]
  have hlen : newLenOf 525825 513 = 1025 := by
    rw [newLenOf]
    rw [show ((525825 : ℕ) : ℝ) / 513 = ((1025 : ℤ) : ℝ) by norm_num, Int.floor_intCast]
    rfl
  have hstep : loopStep 513 525825 1025 0 = some 0 := by
    rw [loopStep]
    rw [if_pos (by norm_num), if_neg (by norm_num), hhop]
    rfl
  have hall : ∀ n, loopPos 513 525825 1025 n = some 0 := by
    intro n
    induction n with
    | zero => rfl
    | succ n ih =>
      rw [loopPos, ih]
      simpa using hstep
  refine ⟨by norm_num, hlen, hhop, ?_⟩
  rw [hlen]
  rintro ⟨n, hn⟩
  rw [hall n] at hn
  exact Option.some_ne_none 0 hn

theorem quantize_eq_specQuantize (x : ℚ) : quantize x = specQuantize x := by
  simp only [quantize, specQuantize, truncToInt]
  by_cases h : max (-1) (min 1 x) < 0
  · rw [if_pos h, if_pos h]
  · rw [if_neg h, if_neg h]

theorem clamp_mem (x : ℚ) : -1 ≤ max (-1) (min 1 x) ∧ max (-1) (min 1 x) ≤ 1 :=
  ⟨le_max_left _ _, max_le (by norm_num) (min_le_left _ _)⟩

theorem quantize_bounds (x : ℚ) : -32768 ≤ quantize x ∧ quantize x ≤ 32767 := by
  obtain ⟨h1, h2⟩ := clamp_mem x
  simp only [quantize, truncToInt]
  by_cases h : max (-1) (min 1 x) < 0
  · rw [if_pos h]
    have hval1 : (-32768 : ℚ) ≤ max (-1) (min 1 x) * 0x8000 := by nlinarith
    have hval2 : max (-1) (min 1 x) * 0x8000 < 0 := by nlinarith
    rw [if_pos hval2]
    constructor
    · have hcast : ((-32768 : ℚ)) = (((-32768 : ℤ)) : ℚ) := by norm_num
      have hle : ⌈((-32768 : ℤ) : ℚ)⌉ ≤ ⌈max (-1) (min 1 x) * 0x8000⌉ :=
        Int.ceil_le_ceil (by rw [← hcast]; exact hval1)
      rwa [Int.ceil_intCast] at hle
    · exact Int.ceil_le.mpr (by push_cast; nlinarith)
  · rw [if_neg h]
    push_neg at h
    have hval1 : (0 : ℚ) ≤ max (-1) (min 1 x) * 0x7fff := by nlinarith
    have hval2 : max (-1) (min 1 x) * 0x7fff ≤ 32767 := by nlinarith
    rw [if_neg (not_lt.mpr hval1)]
    constructor
    · have : (0 : ℤ) ≤ ⌊max (-1) (min 1 x) * 0x7fff⌋ := Int.floor_nonneg.mpr hval1
      omega
    · calc ⌊max (-1) (min 1 x) * 0x7fff⌋ ≤ ⌊(32767 : ℚ)⌋ := Int.floor_le_floor hval2
        _ = 32767 := by norm_num

theorem quantize_one : quantize 1 = 32767 := by
  have h1 : max (-1 : ℚ) (min 1 1) = 1 := by norm_num
  simp only [quantize, truncToInt, h1]
  norm_num

theorem quantize_three_halves : quantize (3 / 2) = 32767 := by
  have h1 : max (-1 : ℚ) (min 1 (3 / 2)) = 1 := by
    rw [min_eq_left (by norm_num), max_eq_right (by norm_num)]
  simp only [quantize, truncToInt, h1]
  norm_num

/-- C2: the Container Encoder clamps each float sample to [-1, 1] and then
quantises a negative value as the toward-zero truncation of sample * 32768
and a non-negative value as the toward-zero truncation of sample * 32767;
the result never overflows the signed 16-bit range, and the out-of-range
sample 1.5 encodes to the same output as 1.0. -/
theorem claim_C2 :
    (∀ x : ℚ, quantize x = specQuantize x ∧ -32768 ≤ quantize x ∧ quantize x ≤ 32767) ∧
    quantize (3 / 2) = quantize 1 ∧
    audioBufferToWav bufSampleOverflow = audioBufferToWav bufSampleFull := by
  refine ⟨fun x => ⟨quantize_eq_specQuantize x, (quantize_bounds x).1, (quantize_bounds x).2⟩,
    by rw [quantize_one, quantize_three_halves], ?_⟩
  show wavHeader bufSampleOverflow ++ wavData bufSampleOverflow =
    wavHeader bufSampleFull ++ wavData bufSampleFull
  have hh : wavHeader bufSampleOverflow = wavHeader bufSampleFull := rfl
  have hd : wavData bufSampleOverflow = wavData bufSampleFull := by
    show frameBytes bufSampleOverflow.channelData 0 ++ [] =
      frameBytes bufSampleFull.channelData 0 ++ []
    simp only [frameBytes, bufSampleOverflow, bufSampleFull, List.map_cons, List.map_nil]
    rw [show quantize ((fun _ : ℕ => (3 : ℚ) / 2) 0) = quantize ((fun _ : ℕ => (1 : ℚ)) 0) by
      show quantize (3 / 2) = quantize 1
      rw [quantize_one, quantize_three_halves]]
  rw [hh, hd]

theorem samplesOfBytes_length : ∀ data : List ℕ, (samplesOfBytes data).length = data.length / 2
  | [] => rfl
  | [a] => by
    show (samplesOfBytes [a]).length = 1 / 2
    rw [show samplesOfBytes [a] = [] from rfl]
    rfl
  | _ :: _ :: rest => by
    simp only [samplesOfBytes, List.length_cons, samplesOfBytes_length rest]
    omega

/-- C3 counterexample: a 1-byte buffer is not aligned to 2 * numChannels = 2
bytes, and the PCM Frame Interpreter fails on it (the Int16Array view over an
odd-length buffer throws) instead of truncating. -/
theorem claim_C3_cex :
    (1 : ℕ) % (2 * 1) ≠ 0 ∧ decodePCMToAudioBuffer [0] 24000 1 = none :=
  ⟨by decide, rfl⟩

/-- C3 (amended): for an input of even byte length the Interpreter never
fails: it truncates to the largest multiple of 2 * numChannels bytes — the
decoded frame count f satisfies 2 * numChannels * f <= length <
2 * numChannels * (f + 1) — and proceeds; an odd byte length, however, makes
it fail (the Int16Array construction throws) rather than truncate. -/
theorem claim_C3 (data : List ℕ) (sampleRate numChannels : ℕ)
    (hnc : 1 ≤ numChannels) :
    (data.length % 2 = 0 →
      ∃ b, decodePCMToAudioBuffer data sampleRate numChannels = some b ∧
        b.numberOfChannels = numChannels ∧
        b.sampleRate = sampleRate ∧
        b.length = data.length / (2 * numChannels) ∧
        2 * numChannels * b.length ≤ data.length ∧
        data.length < 2 * numChannels * (b.length + 1)) ∧
    (data.length % 2 = 1 → decodePCMToAudioBuffer data sampleRate numChannels = none) := by
  constructor
  · intro heven
    rw [decodePCMToAudioBuffer, if_neg (by omega), if_neg (by omega)]
    have hlen : (samplesOfBytes data).length / numChannels = data.length / (2 * numChannels) := by
      rw [samplesOfBytes_length, Nat.div_div_eq_div_mul]
    refine ⟨_, rfl, ?_, rfl, ?_, ?_, ?_⟩
    · simp [AudioBuffer.numberOfChannels]
    · exact hlen
    · dsimp only
      rw [hlen, Nat.mul_comm]
      exact Nat.div_mul_le_self _ _
    · dsimp only
      rw [hlen, Nat.mul_comm]
      exact (Nat.div_lt_iff_lt_mul (by omega)).mp (Nat.lt_succ_self _)
  · intro hodd
    rw [decodePCMToAudioBuffer, if_pos (by omega)]

theorem claim_C3_witness :
    ∃ b, decodePCMToAudioBuffer [1, 0, 2, 0, 3, 0] 24000 2 = some b ∧
      b.numberOfChannels = 2 ∧ b.sampleRate = 24000 ∧
      b.length = 6 / (2 * 2) ∧ 2 * 2 * b.length ≤ 6 ∧ 6 < 2 * 2 * (b.length + 1) := by
  have h := (claim_C3 [1, 0, 2, 0, 3, 0] 24000 2 (by decide)).1 (by decide)
  simpa using h

theorem quantize_zero : quantize 0 = 0 := by
  have h1 : max (-1 : ℚ) (min 1 0) = 0 := by norm_num
  simp only [quantize, truncToInt, h1]
  norm_num

theorem frameBytes_bufC6 (off : ℕ) : frameBytes bufC6.channelData off = [0, 0, 0, 0] := by
  simp only [bufC6, frameBytes, List.map_cons, List.map_nil]
  rw [show quantize ((fun _ : ℕ => (0 : ℚ)) off) = 0 from quantize_zero]
  rfl

theorem wavDataAux_bufC6 :
    ∀ n off, wavDataAux bufC6.channelData n off = List.replicate (4 * n) 0
  | 0, _ => rfl
  | n + 1, off => by
    rw [wavDataAux, frameBytes_bufC6, wavDataAux_bufC6 n (off + 1)]
    rw [show 4 * (n + 1) = 4 + 4 * n by omega, List.replicate_add]
    rfl

set_option maxRecDepth 4000 in
/-- C6: for a buffer of 2 channels, 100 frames, 24000 Hz, the Container
Encoder produces exactly 444 bytes: RIFF, little-endian 436 = total - 8, WAVE,
an fmt chunk of length 16 declaring format 1, 2 channels, 24000 Hz, byte rate
96000, block align 4, 16 bits per sample, and a data chunk of length 400 =
total - 44. -/
theorem claim_C6 :
    (audioBufferToWav bufC6).length = 444 ∧
    (audioBufferToWav bufC6).take 4 = [82, 73, 70, 70] ∧
    ((audioBufferToWav bufC6).drop 4).take 4 = [180, 1, 0, 0] ∧
    ((audioBufferToWav bufC6).drop 8).take 4 = [87, 65, 86, 69] ∧
    ((audioBufferToWav bufC6).drop 12).take 4 = [102, 109, 116, 32] ∧
    ((audioBufferToWav bufC6).drop 16).take 4 = [16, 0, 0, 0] ∧
    ((audioBufferToWav bufC6).drop 20).take 2 = [1, 0] ∧
    ((audioBufferToWav bufC6).drop 22).take 2 = [2, 0] ∧
    ((audioBufferToWav bufC6).drop 24).take 4 = [192, 93, 0, 0] ∧
    ((audioBufferToWav bufC6).drop 28).take 4 = [0, 119, 1, 0] ∧
    ((audioBufferToWav bufC6).drop 32).take 2 = [4, 0] ∧
    ((audioBufferToWav bufC6).drop 34).take 2 = [16, 0] ∧
    ((audioBufferToWav bufC6).drop 36).take 4 = [100, 97, 116, 97] ∧
    ((audioBufferToWav bufC6).drop 40).take 4 = [144, 1, 0, 0] := by
  have h : audioBufferToWav bufC6 = wavHeader bufC6 ++ List.replicate 400 0 := by
    rw [audioBufferToWav, wavData, wavDataAux_bufC6]
    rfl
  rw [h]
  decide

theorem toInt16_bounds (lo hi : ℕ) : -32768 ≤ toInt16 lo hi ∧ toInt16 lo hi ≤ 32767 := by
  have h := Nat.mod_lt (lo + 256 * hi) (show 0 < 65536 by norm_num)
  simp only [toInt16]
  split <;> omega

theorem samplesOfBytes_mem : ∀ data : List ℕ, ∀ v ∈ samplesOfBytes data,
    -32768 ≤ v ∧ v ≤ 32767
  | [] => by
    intro v hv
    simp [samplesOfBytes] at hv
  | [a] => by
    intro v hv
    rw [show samplesOfBytes [a] = [] from rfl] at hv
    simp at hv
  | lo :: hi :: rest => by
    intro v hv
    rw [show samplesOfBytes (lo :: hi :: rest) = toInt16 lo hi :: samplesOfBytes rest
      from rfl] at hv
    rcases List.mem_cons.mp hv with h | h
    · exact h ▸ toInt16_bounds lo hi
    · exact samplesOfBytes_mem rest v h

theorem samplesOfBytes_getD_bounds (data : List ℕ) (j : ℕ) :
    -32768 ≤ (samplesOfBytes data).getD j 0 ∧ (samplesOfBytes data).getD j 0 ≤ 32767 := by
  by_cases hj : j < (samplesOfBytes data).length
  · rw [List.getD_eq_getElem _ _ hj]
    exact samplesOfBytes_mem data _ (List.getElem_mem hj)
  · rw [List.getD_eq_default _ _ (by omega)]
    norm_num

theorem quantize_decode (s : ℤ) (h1 : -32768 ≤ s) (h2 : s ≤ 32767) :
    quantize ((s : ℚ) / 32768) = rtSample s := by
  have hpos : (0 : ℚ) < 32768 := by norm_num
  have hq1 : (-1 : ℚ) ≤ (s : ℚ) / 32768 := by
    rw [le_div_iff₀ hpos]
    have hc : ((-32768 : ℤ) : ℚ) ≤ (s : ℚ) := by exact_mod_cast h1
    push_cast at hc
    linarith
  have hq2 : (s : ℚ) / 32768 ≤ 1 := by
    rw [div_le_one hpos]
    have hc : ((s : ℚ)) ≤ ((32767 : ℤ) : ℚ) := by exact_mod_cast h2
    push_cast at hc
    linarith
  simp only [quantize, min_eq_right hq2, max_eq_right hq1]
  by_cases hs : s < 0
  · have hqneg : (s : ℚ) / 32768 < 0 :=
      div_neg_of_neg_of_pos (by exact_mod_cast hs) hpos
    rw [if_pos hqneg]
    have hmul : (s : ℚ) / 32768 * 0x8000 = (s : ℚ) := by
      field_simp
    rw [hmul, truncToInt, if_pos (show (s : ℚ) < 0 by exact_mod_cast hs),
      Int.ceil_intCast, rtSample, if_neg (by omega)]
  · push_neg at hs
    have hqpos : 0 ≤ (s : ℚ) / 32768 := div_nonneg (by exact_mod_cast hs) hpos.le
    rw [if_neg (not_lt.mpr hqpos)]
    have hmul : (s : ℚ) / 32768 * 0x7fff = ((s * 32767 : ℤ) : ℚ) / ((32768 : ℕ) : ℚ) := by
      push_cast
      ring
    have hvpos : 0 ≤ ((s * 32767 : ℤ) : ℚ) / ((32768 : ℕ) : ℚ) := by
      apply div_nonneg _ (by norm_num)
      push_cast
      nlinarith
    rw [hmul, truncToInt, if_neg (not_lt.mpr hvpos), Rat.floor_intCast_div_natCast,
      rtSample]
    split <;> omega

theorem rtBytes_eq_flatten : ∀ data : List ℕ,
    rtBytes data = ((samplesOfBytes data).map (fun v => i16le (rtSample v))).flatten
  | [] => rfl
  | [_] => rfl
  | lo :: hi :: rest => by
    rw [show rtBytes (lo :: hi :: rest) = i16le (rtSample (toInt16 lo hi)) ++ rtBytes rest
        from rfl,
      show samplesOfBytes (lo :: hi :: rest) = toInt16 lo hi :: samplesOfBytes rest
        from rfl,
      List.map_cons, List.flatten_cons, rtBytes_eq_flatten rest]

theorem map_eq_range_getD (g : ℤ → List ℕ) : ∀ l : List ℤ,
    l.map g = (List.range l.length).map (fun j => g (l.getD j 0))
  | [] => rfl
  | a :: t => by
    rw [List.map_cons, List.length_cons, List.range_succ_eq_map, List.map_cons,
      List.map_map, map_eq_range_getD g t, List.getD_cons_zero]
    refine congrArg₂ List.cons rfl ?_
    apply List.map_congr_left
    intro j _
    simp [Function.comp, List.getD_cons_succ]

theorem wavDataAux_eq_range (channels : List (ℕ → ℚ)) :
    ∀ (n off : ℕ), wavDataAux channels n off =
      ((List.range n).map (fun t => frameBytes channels (off + t))).flatten
  | 0, _ => rfl
  | n + 1, off => by
    rw [wavDataAux, wavDataAux_eq_range channels n (off + 1),
      List.range_succ_eq_map, List.map_cons, List.flatten_cons, List.map_map]
    refine congrArg₂ (· ++ ·) rfl (congrArg List.flatten ?_)
    apply List.map_congr_left
    intro t _
    show frameBytes channels (off + 1 + t) = frameBytes channels (off + (t + 1))
    rw [show off + 1 + t = off + (t + 1) from by omega]

theorem flatten_range_mul (F : ℕ → List ℕ) (nc : ℕ) :
    ∀ f : ℕ,
      ((List.range f).map
        (fun off => ((List.range nc).map (fun c => F (off * nc + c))).flatten)).flatten
      = ((List.range (f * nc)).map F).flatten
  | 0 => by simp
  | f + 1 => by
    rw [List.range_succ, List.map_append, List.flatten_append, flatten_range_mul F nc f,
      show (f + 1) * nc = f * nc + nc from by ring, List.range_add, List.map_append,
      List.flatten_append, List.map_map]
    refine congrArg₂ (· ++ ·) rfl ?_
    simp only [List.map_cons, List.map_nil, List.flatten_cons, List.flatten_nil,
      List.append_nil]
    refine congrArg List.flatten ?_
    apply List.map_congr_left
    intro c _
    simp [Function.comp]

theorem wavHeader_length (b : AudioBuffer ℚ) : (wavHeader b).length = 44 := by
  simp [wavHeader, u32le, u16le]

theorem audioBufferToWav_drop44 (b : AudioBuffer ℚ) :
    (audioBufferToWav b).drop 44 = wavData b := by
  rw [audioBufferToWav, ← wavHeader_length b, List.drop_left]

theorem roundtrip_core (data : List ℕ) (sampleRate numChannels f : ℕ)
    (hnc : 1 ≤ numChannels) (hlen : data.length = 2 * numChannels * f) :
    ∃ b, decodePCMToAudioBuffer data sampleRate numChannels = some b ∧
      b.length = f ∧ (audioBufferToWav b).drop 44 = rtBytes data := by
  have hncpos : 0 < numChannels := hnc
  have hsl : (samplesOfBytes data).length = numChannels * f := by
    rw [samplesOfBytes_length, hlen,
      show 2 * numChannels * f = numChannels * f * 2 from by ring]
    exact Nat.mul_div_cancel _ (by norm_num)
  have hfc : (samplesOfBytes data).length / numChannels = f := by
    rw [hsl]
    exact Nat.mul_div_cancel_left f hncpos
  have heven : data.length % 2 = 0 := by
    rw [hlen, show 2 * numChannels * f = numChannels * f * 2 from by ring]
    exact Nat.mul_mod_left _ _
  rw [decodePCMToAudioBuffer, if_neg (by omega), if_neg (by omega)]
  refine ⟨_, rfl, hfc, ?_⟩
  rw [audioBufferToWav_drop44, wavData]
  dsimp only
  rw [hfc, wavDataAux_eq_range]
  have hstep : ∀ t ∈ List.range f,
      frameBytes
        ((List.range numChannels).map (fun c => fun i =>
          if i < f then
            (((samplesOfBytes data).getD (i * numChannels + c) 0 : ℤ) : ℚ) / 32768
          else 0)) (0 + t)
      = ((List.range numChannels).map
          (fun c => i16le (rtSample ((samplesOfBytes data).getD (t * numChannels + c) 0)))).flatten := by
    intro t ht
    have htf : t < f := List.mem_range.mp ht
    rw [frameBytes, List.map_map]
    refine congrArg List.flatten ?_
    apply List.map_congr_left
    intro c _
    show i16le (quantize (if 0 + t < f then
        (((samplesOfBytes data).getD ((0 + t) * numChannels + c) 0 : ℤ) : ℚ) / 32768
      else 0)) = _
    rw [Nat.zero_add, if_pos (by omega)]
    obtain ⟨hb1, hb2⟩ := samplesOfBytes_getD_bounds data (t * numChannels + c)
    rw [quantize_decode _ hb1 hb2]
  rw [List.map_congr_left hstep, flatten_range_mul
    (fun j => i16le (rtSample ((samplesOfBytes data).getD j 0))) numChannels f,
    rtBytes_eq_flatten, map_eq_range_getD, hsl, Nat.mul_comm]

/-- C1 counterexample: the byte pair [1, 0] stores the 16-bit sample 1, which
is not the positive extreme, yet decoding it and re-encoding yields the data
bytes [0, 0] — the sample 0, not 1 — so the round trip is not the identity
away from the documented clamp. -/
theorem claim_C1_cex :
    (∃ b, decodePCMToAudioBuffer [1, 0] 24000 1 = some b ∧
      (audioBufferToWav b).drop 44 = [0, 0]) ∧
    toInt16 1 0 = 1 ∧ ((0 : ℤ) ≠ 1) ∧ ((1 : ℤ) ≠ 32767) := by
  refine ⟨?_, by decide, by decide, by decide⟩
  obtain ⟨b, hb, _, hdata⟩ := roundtrip_core [1, 0] 24000 1 1 (by decide) (by decide)
  exact ⟨b, hb, by rw [hdata]; decide⟩

/-- C1 (amended): for every byte sequence whose length is a multiple of
2 * numChannels, decoding with the PCM Frame Interpreter and re-encoding with
the Container Encoder reproduces each nonpositive 16-bit sample exactly and
maps each strictly positive sample s to s - 1 (not only at the positive
extreme: decode divides by 32768, encode scales non-negatives by 32767 and
truncates, which loses 1 on every positive sample). -/
theorem claim_C1 (data : List ℕ) (sampleRate numChannels f : ℕ)
    (hnc : 1 ≤ numChannels) (hlen : data.length = 2 * numChannels * f) :
    ∃ b, decodePCMToAudioBuffer data sampleRate numChannels = some b ∧
      b.length = f ∧ (audioBufferToWav b).drop 44 = rtBytes data :=
  roundtrip_core data sampleRate numChannels f hnc hlen

theorem claim_C1_witness :
    ∃ b, decodePCMToAudioBuffer [144, 1, 0, 128] 24000 2 = some b ∧
      b.length = 1 ∧ (audioBufferToWav b).drop 44 = rtBytes [144, 1, 0, 128] :=
  claim_C1 [144, 1, 0, 128] 24000 2 1 (by decide) (by decide)

theorem pitchFactorOf_zero : pitchFactorOf 0 = 1 := by
  rw [pitchFactorOf, zero_div, Real.rpow_zero]

theorem pitchFactorOf_pos (pitch : ℝ) : 0 < pitchFactorOf pitch :=
  Real.rpow_pos_of_pos (by norm_num) _

/-- C7 counterexample: at speed 2, pitch 0 on a one-second buffer, the final
frame count is 12000, so final duration / original duration = 1/2, not the
claimed speed = 2 (not even within a 1 percent tolerance): the claim inverts
the duration ratio. -/
theorem claim_C7_cex :
    processAudioLength bufSecond 2 0 = 12000 ∧
    bufSecond.length = 24000 ∧
    ¬ |((processAudioLength bufSecond 2 0 : ℕ) : ℝ) / ((bufSecond.length : ℕ) : ℝ) - 2|
        ≤ 2 * (1 / 100) := by
  have hr : (2 : ℝ) / pitchFactorOf 0 = 2 := by
    rw [pitchFactorOf_zero]
    norm_num
  have hlen12 : (timeStretch bufSecond (2 / pitchFactorOf 0)).length = 12000 := by
    rw [hr, timeStretch_length bufSecond 2 (by norm_num)]
    show max 1 (Int.toNat ⌊((24000 : ℕ) : ℝ) / 2⌋) = 12000
    norm_num
    rfl
  have hmain : processAudioLength bufSecond 2 0 = 12000 := by
    rw [processAudioLength, hlen12, pitchFactorOf_zero]
    norm_num
    rfl
  refine ⟨hmain, rfl, ?_⟩
  rw [hmain, show bufSecond.length = 24000 from rfl]
  rw [show (((12000 : ℕ) : ℝ)) / (((24000 : ℕ) : ℝ)) = 1 / 2 by norm_num]
  rw [show |(1 : ℝ) / 2 - 2| = 3 / 2 by rw [abs_of_nonpos] <;> norm_num]
  norm_num

/-- C7 (amended): processAudio computes pitchFactor = 2^(pitch/12) and
stretchRatio = speed / pitchFactor, stretches first and then resamples with
output frame count max(1, floor(stretchedLength / pitchFactor)); whenever the
stretch is not on its identity fast path, its ratio is at most 512, and the
two floors are at least 1, the final frame count n satisfies
oldLength / speed - 1/pitchFactor - 1 < n <= oldLength / speed — the final
duration divided by the original equals 1 / speed (not speed) up to this
floor rounding, regardless of the pitch chosen. -/
theorem claim_C7 (b : AudioBuffer ℝ) (speed pitch : ℝ) (hs : 0 < speed)
    (hid : ¬ |speed / pitchFactorOf pitch - 1| < 1 / 1000)
    (h512 : speed / pitchFactorOf pitch ≤ 512)
    (h1 : 1 ≤ ⌊(b.length : ℝ) / (speed / pitchFactorOf pitch)⌋)
    (h2 : 1 ≤ ⌊((newLenOf b.length (speed / pitchFactorOf pitch) : ℕ) : ℝ) /
      pitchFactorOf pitch⌋) :
    (b.length : ℝ) / speed - 1 / pitchFactorOf pitch - 1
        < ((processAudioLength b speed pitch : ℕ) : ℝ) ∧
    ((processAudioLength b speed pitch : ℕ) : ℝ) ≤ (b.length : ℝ) / speed := by
  have hfpos : 0 < pitchFactorOf pitch := pitchFactorOf_pos pitch
  have hfne : pitchFactorOf pitch ≠ 0 := ne_of_gt hfpos
  have hSL : newLenOf b.length (speed / pitchFactorOf pitch)
      = Int.toNat ⌊(b.length : ℝ) / (speed / pitchFactorOf pitch)⌋ := by
    rw [newLenOf]
    exact max_eq_right (by omega)
  have hSLcast : ((newLenOf b.length (speed / pitchFactorOf pitch) : ℕ) : ℝ)
      = ((⌊(b.length : ℝ) / (speed / pitchFactorOf pitch)⌋ : ℤ) : ℝ) := by
    rw [hSL, ← Int.cast_natCast, Int.toNat_of_nonneg (by omega)]
  have hPAL : processAudioLength b speed pitch
      = Int.toNat ⌊((newLenOf b.length (speed / pitchFactorOf pitch) : ℕ) : ℝ) /
          pitchFactorOf pitch⌋ := by
    rw [processAudioLength, timeStretch_length _ _ hid]
    exact max_eq_right (by omega)
  have hPALcast : ((processAudioLength b speed pitch : ℕ) : ℝ)
      = ((⌊((newLenOf b.length (speed / pitchFactorOf pitch) : ℕ) : ℝ) /
          pitchFactorOf pitch⌋ : ℤ) : ℝ) := by
    rw [hPAL, ← Int.cast_natCast, Int.toNat_of_nonneg (by omega)]
  have hdiv : (b.length : ℝ) / (speed / pitchFactorOf pitch) / pitchFactorOf pitch
      = (b.length : ℝ) / speed := by
    rw [div_div, div_mul_cancel₀ _ hfne]
  have hA : (b.length : ℝ) / (speed / pitchFactorOf pitch) - 1
      < ((newLenOf b.length (speed / pitchFactorOf pitch) : ℕ) : ℝ) := by
    rw [hSLcast]
    exact Int.sub_one_lt_floor _
  have hB : ((newLenOf b.length (speed / pitchFactorOf pitch) : ℕ) : ℝ) /
        pitchFactorOf pitch - 1
      < ((processAudioLength b speed pitch : ℕ) : ℝ) := by
    rw [hPALcast]
    exact Int.sub_one_lt_floor _
  have hU1 : ((processAudioLength b speed pitch : ℕ) : ℝ)
      ≤ ((newLenOf b.length (speed / pitchFactorOf pitch) : ℕ) : ℝ) /
          pitchFactorOf pitch := by
    rw [hPALcast]
    exact Int.floor_le _
  have hU2 : ((newLenOf b.length (speed / pitchFactorOf pitch) : ℕ) : ℝ)
      ≤ (b.length : ℝ) / (speed / pitchFactorOf pitch) := by
    rw [hSLcast]
    exact Int.floor_le _
  constructor
  · have hC : ((b.length : ℝ) / (speed / pitchFactorOf pitch) - 1) / pitchFactorOf pitch
        < ((newLenOf b.length (speed / pitchFactorOf pitch) : ℕ) : ℝ) /
            pitchFactorOf pitch := by
      gcongr
    have hD : ((b.length : ℝ) / (speed / pitchFactorOf pitch) - 1) / pitchFactorOf pitch
        = (b.length : ℝ) / speed - 1 / pitchFactorOf pitch := by
      rw [sub_div, hdiv]
    linarith
  · have hC : ((newLenOf b.length (speed / pitchFactorOf pitch) : ℕ) : ℝ) /
          pitchFactorOf pitch
        ≤ (b.length : ℝ) / (speed / pitchFactorOf pitch) / pitchFactorOf pitch := by
      gcongr
    rw [hdiv] at hC
    linarith

theorem claim_C7_witness :
    (bufSecond.length : ℝ) / 2 - 1 / pitchFactorOf 0 - 1
        < ((processAudioLength bufSecond 2 0 : ℕ) : ℝ) ∧
    ((processAudioLength bufSecond 2 0 : ℕ) : ℝ) ≤ (bufSecond.length : ℝ) / 2 := by
  refine claim_C7 bufSecond 2 0 (by norm_num) ?_ ?_ ?_ ?_
  · rw [pitchFactorOf_zero]
    norm_num
  · rw [pitchFactorOf_zero]
    norm_num
  · rw [pitchFactorOf_zero, show bufSecond.length = 24000 from rfl]
    norm_num
  · rw [pitchFactorOf_zero, show bufSecond.length = 24000 from rfl]
    rw [show newLenOf 24000 ((2 : ℝ) / 1) = 12000 by
      rw [show (2 : ℝ) / 1 = 2 by norm_num, newLenOf]
      norm_num
      rfl]
    norm_num

theorem outHop_ge_one (r : ℝ) (h0 : 0 < r) (h512 : r ≤ 512) : 1 ≤ outHop r := by
  rw [outHop, Int.le_floor]
  push_cast
  rw [le_div_iff₀ h0]
  linarith

theorem olaLoop_eq_foldl (input : ℕ → ℝ) (r : ℝ) (hop : ℤ) (oldLen newLen : ℕ) :
    ∀ (fuel : ℕ) (i : ℤ) (st : (ℤ → ℝ) × (ℤ → ℝ)),
      olaLoop input r hop oldLen newLen fuel i st
        = (codePositions r hop oldLen newLen fuel i).foldl (olaStepAcc input r) st
  | 0, _, _ => rfl
  | fuel + 1, i, st => by
    simp only [olaLoop, codePositions]
    by_cases hb : i < (newLen : ℤ) - 1024
    · rw [if_pos hb, if_pos hb]
      by_cases hbr : (oldLen : ℤ) < ⌊(i : ℝ) * r⌋ + 1024
      · rw [if_pos hbr, if_pos hbr]
        rfl
      · rw [if_neg hbr, if_neg hbr, List.foldl_cons]
        exact olaLoop_eq_foldl input r hop oldLen newLen fuel (i + hop)
          (olaStepAcc input r st i)
    · rw [if_neg hb, if_neg hb]
      rfl

theorem takeWhile_takeWhile_and {α : Type} (p q : α → Bool) : ∀ l : List α,
    (l.takeWhile q).takeWhile p = l.takeWhile (fun a => q a && p a)
  | [] => rfl
  | a :: l => by
    by_cases hq : q a <;> by_cases hp : p a <;>
      simp [List.takeWhile, hq, hp, takeWhile_takeWhile_and p q l]

theorem filter_bound_eq_takeWhile (hop : ℤ) (hhop : 1 ≤ hop) (N : ℤ) :
    ∀ (n k : ℕ),
      ((List.range n).map (fun t => ((k + t : ℕ) : ℤ) * hop)).filter
          (fun i => decide (i + 1024 < N))
        = ((List.range n).map (fun t => ((k + t : ℕ) : ℤ) * hop)).takeWhile
          (fun i => decide (i + 1024 < N))
  | 0, _ => rfl
  | n + 1, k => by
    rw [List.range_succ_eq_map, List.map_cons, List.map_map]
    have htail : (List.range n).map ((fun t => ((k + t : ℕ) : ℤ) * hop) ∘ Nat.succ)
        = (List.range n).map (fun t => (((k + 1) + t : ℕ) : ℤ) * hop) := by
      apply List.map_congr_left
      intro t _
      show ((k + (t + 1) : ℕ) : ℤ) * hop = (((k + 1) + t : ℕ) : ℤ) * hop
      rw [show k + (t + 1) = (k + 1) + t from by omega]
    by_cases hP : ((k + 0 : ℕ) : ℤ) * hop + 1024 < N
    · rw [List.filter_cons_of_pos (by simpa using hP),
        List.takeWhile_cons_of_pos (by simpa using hP), htail,
        filter_bound_eq_takeWhile hop hhop N n (k + 1)]
    · rw [List.filter_cons_of_neg (by simpa using hP),
        List.takeWhile_cons_of_neg (by simpa using hP), htail]
      apply List.filter_eq_nil_iff.mpr
      intro x hx
      simp only [List.mem_map, List.mem_range] at hx
      obtain ⟨t, _, rfl⟩ := hx
      simp only [decide_eq_true_eq, not_lt]
      have hk0 : ((k + 0 : ℕ) : ℤ) ≤ ((k + 1 + t : ℕ) : ℤ) := by
        push_cast
        omega
      have hmul : ((k + 0 : ℕ) : ℤ) * hop ≤ ((k + 1 + t : ℕ) : ℤ) * hop :=
        mul_le_mul_of_nonneg_right hk0 (by omega)
      push_neg at hP
      linarith

theorem codePositions_eq_takeWhile (r : ℝ) (oldLen newLen : ℕ) (hop : ℤ)
    (hhop : 1 ≤ hop) :
    ∀ (n fuel k : ℕ), newLen ≤ k + n → n ≤ fuel →
      codePositions r hop oldLen newLen fuel (((k : ℕ) : ℤ) * hop)
        = ((List.range n).map (fun t => ((k + t : ℕ) : ℤ) * hop)).takeWhile
          (fun i => decide (i + 1024 < (newLen : ℤ)) &&
            decide (⌊(i : ℝ) * r⌋ + 1024 ≤ (oldLen : ℤ)))
  | 0, fuel, k => by
    intro hcover _
    have hguard : ¬ (((k : ℕ) : ℤ) * hop < (newLen : ℤ) - 1024) := by
      have hk : ((k : ℕ) : ℤ) ≤ ((k : ℕ) : ℤ) * hop :=
        le_mul_of_one_le_right (by omega) hhop
      have : (newLen : ℤ) ≤ (k : ℕ) := by exact_mod_cast hcover
      omega
    cases fuel with
    | zero => rfl
    | succ fuel =>
      simp only [codePositions]
      rw [if_neg hguard]
      rfl
  | n + 1, fuel, k => by
    intro hcover hfuel
    cases fuel with
    | zero => omega
    | succ fuel =>
      simp only [codePositions]
      rw [List.range_succ_eq_map, List.map_cons, List.map_map]
      have htail : (List.range n).map ((fun t => ((k + t : ℕ) : ℤ) * hop) ∘ Nat.succ)
          = (List.range n).map (fun t => (((k + 1) + t : ℕ) : ℤ) * hop) := by
        apply List.map_congr_left
        intro t _
        show ((k + (t + 1) : ℕ) : ℤ) * hop = (((k + 1) + t : ℕ) : ℤ) * hop
        rw [show k + (t + 1) = (k + 1) + t from by omega]
      have hhead : ((k + 0 : ℕ) : ℤ) * hop = ((k : ℕ) : ℤ) * hop := by norm_num
      by_cases hbd : ((k : ℕ) : ℤ) * hop < (newLen : ℤ) - 1024
      · rw [if_pos hbd]
        by_cases hbr : (oldLen : ℤ) < ⌊((((k : ℕ) : ℤ) * hop : ℤ) : ℝ) * r⌋ + 1024
        · rw [if_pos hbr]
          rw [List.takeWhile_cons_of_neg]
          simp only [hhead, Bool.and_eq_true, decide_eq_true_eq, not_and]
          intro _
          omega
        · rw [if_neg hbr]
          rw [List.takeWhile_cons_of_pos]
          · rw [htail,
              show ((k : ℕ) : ℤ) * hop + hop = (((k + 1 : ℕ)) : ℤ) * hop from by
                push_cast
                ring,
              codePositions_eq_takeWhile r oldLen newLen hop hhop n fuel (k + 1)
                (by omega) (by omega), hhead]
          · simp only [hhead, Bool.and_eq_true, decide_eq_true_eq]
            omega
      · rw [if_neg hbd]
        rw [List.takeWhile_cons_of_neg]
        simp only [hhead, Bool.and_eq_true, decide_eq_true_eq, not_and]
        intro h
        omega

theorem stretchChannel_eq_olaStrict (input : ℕ → ℝ) (r : ℝ) (oldLen : ℕ)
    (h0 : 0 < r) (h512 : r ≤ 512) :
    stretchChannel input r oldLen = olaStrict input r oldLen := by
  have hhop : 1 ≤ outHop r := outHop_ge_one r h0 h512
  rw [stretchChannel, olaStrict]
  refine congrArg normalizePass ?_
  rw [olaLoop_eq_foldl]
  refine congrArg₂ _ rfl ?_
  rw [show (0 : ℤ) = ((0 : ℕ) : ℤ) * outHop r from by simp]
  rw [codePositions_eq_takeWhile r oldLen (newLenOf oldLen r) (outHop r) hhop
    (newLenOf oldLen r + 1) (newLenOf oldLen r + 1) 0 (by omega) (le_refl _)]
  rw [olaStrictPositions]
  have hmap : (List.range (newLenOf oldLen r + 1)).map (fun k : ℕ => (k : ℤ) * outHop r)
      = (List.range (newLenOf oldLen r + 1)).map
          (fun t => ((0 + t : ℕ) : ℤ) * outHop r) := by
    apply List.map_congr_left
    intro t _
    norm_num
  rw [hmap, filter_bound_eq_takeWhile (outHop r) hhop _ (newLenOf oldLen r + 1) 0,
    takeWhile_takeWhile_and]

/-- C8 (amended): outside the identity fast path (and with 0 < r <= 512 so
the loop advances), each channel of timeStretch is exactly the overlap-add
synthesis the claim describes — positions i = k * Hout with
Hout = floor(512 / r), cut at the first position whose analysis index
overruns the input, window accumulation output[i+j] += input[inputIdx+j] *
win[j] and weight[i+j] += win[j], then normalisation where the weight exceeds
0.01 — except that the loop runs only for i + 1024 strictly below newLength,
not for i + 1024 = newLength as claimed. -/
theorem claim_C8 (b : AudioBuffer ℝ) (r : ℝ) (h : ¬ |r - 1| < 1 / 1000)
    (h0 : 0 < r) (h512 : r ≤ 512) :
    (timeStretch b r).channelData
      = b.channelData.map (fun ch => olaStrict ch r b.length) := by
  rw [timeStretch_channels b r h]
  apply List.map_congr_left
  intro ch _
  exact stretchChannel_eq_olaStrict ch r b.length h0 h512

theorem claim_C8_witness :
    (timeStretch bufStretchW 2).channelData
      = bufStretchW.channelData.map (fun ch => olaStrict ch 2 bufStretchW.length) :=
  claim_C8 bufStretchW 2 (by norm_num) (by norm_num) (by norm_num)

theorem newLenOf_bufWindow : newLenOf 2048 2 = 1024 := by
  rw [newLenOf]
  norm_num
  rfl

theorem outHop_two : outHop 2 = 256 := by
  rw [outHop]
  norm_num

theorem hann_mid_large : (1 : ℝ) / 2 ≤ hann 512 := by
  have hπ := Real.pi_pos
  have hx : Real.cos (2 * Real.pi * ((512 : ℕ) : ℝ) / 1023) ≤ 0 := by
    apply Real.cos_nonpos_of_pi_div_two_le_of_le
    · push_cast
      nlinarith
    · push_cast
      nlinarith
  have hc := Real.cos_le_one (2 * Real.pi * ((512 : ℕ) : ℝ) / 1023)
  rw [hann]
  linarith

set_option maxRecDepth 10000 in
/-- C8 counterexample: a mono 2048-frame constant buffer at ratio 2 has
newLength = 1024, exactly one window.  The loop bound of the claim,
i + 1024 <= newLength, admits the iteration at i = 0, whose normalised
output at index 512 is the input value 1/2; the source loop bound
i < newLength - windowSize admits no iteration at all and the output is 0.
So timeStretch does not implement the claimed loop. -/
theorem claim_C8_cex :
    ((timeStretch bufWindow 2).channelData.getD 0 (fun _ => 0)) 512 = 0 ∧
    olaSpec (fun _ => (1 : ℝ) / 2) 2 2048 512 = 1 / 2 ∧
    ¬ ((timeStretch bufWindow 2).channelData
        = bufWindow.channelData.map (fun ch => olaSpec ch 2 bufWindow.length)) := by
  have hcode : ((timeStretch bufWindow 2).channelData.getD 0 (fun _ => 0)) 512 = 0 := by
    rw [timeStretch_channels bufWindow 2 (by norm_num)]
    rw [show bufWindow.channelData = [fun _ => (1 : ℝ) / 2] from rfl]
    simp only [List.map_cons, List.map_nil, List.getD_cons_zero]
    rw [show bufWindow.length = 2048 from rfl]
    exact stretch_short _ 2 2048 (le_of_eq newLenOf_bufWindow) 512
  have hspec : olaSpec (fun _ => (1 : ℝ) / 2) 2 2048 512 = 1 / 2 := by
    have hpos2 : olaSpecPositions 2 2048 (newLenOf 2048 2) = [0] := by
      rw [newLenOf_bufWindow, olaSpecPositions]
      simp only [outHop_two]
      rw [show ((List.range (1024 + 1)).map (fun k : ℕ => (k : ℤ) * 256)).filter
          (fun i => decide (i + 1024 ≤ ((1024 : ℕ) : ℤ))) = [0] from by decide]
      have hP0 : decide (⌊(((0 : ℤ)) : ℝ) * 2⌋ + 1024 ≤ ((2048 : ℕ) : ℤ)) = true := by
        simp only [decide_eq_true_eq]
        push_cast
        norm_num
      simp only [List.takeWhile, hP0]
    rw [olaSpec, hpos2, List.foldl_cons, List.foldl_nil, normalizePass]
    have hcond : (0 : ℤ) ≤ ((512 : ℕ) : ℤ) ∧ ((512 : ℕ) : ℤ) < 0 + 1024 := by
      push_cast
      norm_num
    have hw2 : (olaStepAcc (fun _ => (1 : ℝ) / 2) 2 (fun _ => 0, fun _ => 0) 0).2
        ((512 : ℕ) : ℤ) = hann 512 := by
      simp only [olaStepAcc]
      rw [if_pos hcond]
      norm_num
      rfl
    have hw1 : (olaStepAcc (fun _ => (1 : ℝ) / 2) 2 (fun _ => 0, fun _ => 0) 0).1
        ((512 : ℕ) : ℤ) = 1 / 2 * hann 512 := by
      simp only [olaStepAcc]
      rw [if_pos hcond]
      norm_num
      rfl
    rw [hw1, hw2, if_pos (by linarith [hann_mid_large])]
    rw [mul_div_assoc, div_self (by linarith [hann_mid_large]), mul_one]
  refine ⟨hcode, hspec, ?_⟩
  intro heq
  have h2 := congrArg (fun l => (l.getD 0 (fun _ => 0)) 512) heq
  simp only at h2
  rw [hcode] at h2
  rw [show bufWindow.channelData = [fun _ => (1 : ℝ) / 2] from rfl] at h2
  simp only [List.map_cons, List.map_nil, List.getD_cons_zero] at h2
  rw [show bufWindow.length = 2048 from rfl, hspec] at h2
  norm_num at h2

end AwaazAI
